import Mathlib

/-!
Verification of the trend-merge utilities in `src/utils/main-utils.js`.

The module's core is `updateExistingTrend`: a weighted sentiment-score merge
and a keyword deduplicate/sort/truncate pipeline, together with
`processTrend` (record assembly for new vs existing trends),
`removeOldTrends` (pruning by current trend names) and `update`
(per-trend fan-out with a completion counter).

Embedding conventions:
- JS numbers holding scores are modelled as `ℚ`; `tweets_analyzed` counts
  are modelled as `ℕ` (the spec fixes them as non-negative integer counters).
- `keyword.occurences` is modelled as `Int` (the spec calls it an integer).
- `Array.prototype.slice(0, e)` is modelled with its ECMAScript semantics:
  a negative `e` is taken relative to the end of the array.
- `Array.prototype.sort` with the comparator
  `(a, b) => b.occurences - a.occurences` is a stable sort (ECMAScript 2019)
  under the total preorder "greater-or-equal `occurences`"; any stable
  sorting algorithm realises it, so it is embedded as a stable insertion
  sort descending on `occurences`.
- The dedup's `keywordsExisting` is a plain object literal `\x7b\x7d`, so a
  property read `keywordsExisting[word]` consults the prototype chain: for
  every `word` naming an `Object.prototype` member (`"toString"`,
  `"constructor"`, ...) the read is truthy before any assignment. The seen
  accumulator therefore models the set of keys whose read is truthy, and it
  starts as `objectProtoKeys`, not empty.
- The external sentiment-label lookup `sentimentUtils.getSentimentDescription`
  is an arbitrary function parameter `gsd : ℚ → String`.
- `tweets` and `articles` payloads are passed through verbatim and never
  inspected; they are modelled as `List String`.
-/

/-- A keyword entry `{word, occurences}`. -/
structure Keyword where
  word : String
  occurences : Int
  deriving DecidableEq, Repr

/-- Streaming-tracker data for one trend: `{sentiment, tweets_analyzed, keywords}`. -/
structure StreamData where
  sentiment : ℚ
  tweets_analyzed : ℕ
  keywords : List Keyword
  deriving DecidableEq, Repr

/-- Raw trend metadata coming from the trends module (`trendData`). -/
structure TrendInput where
  name : String
  rank : Int
  deriving DecidableEq, Repr

/-- A persisted trend record, as assembled by `processTrend` /
`updateExistingTrend` in `main-utils.js`. -/
structure TrendRecord where
  name : String
  rank : Int
  sentiment_score : ℚ
  sentiment_description : String
  tweets_analyzed : ℕ
  keywords : List Keyword
  tweets : List String
  articles : List String
  deriving DecidableEq, Repr

/-- The weighted sentiment merge of `updateExistingTrend` (lines 111-117):
`newTweetsAnalyzed > 0 ? (cs*cw + es*ew) / newTweetsAnalyzed : 0` where
`newTweetsAnalyzed = ew + cw`. -/
def mergeSentiment (es : ℚ) (ew : ℕ) (cs : ℚ) (cw : ℕ) : ℚ :=
  if 0 < ew + cw then
    (cs * (cw : ℚ) + es * (ew : ℚ)) / ((ew : ℚ) + (cw : ℚ))
  else 0

/-- The own property names of `Object.prototype` (ECMAScript, Annex B
included). A plain object literal inherits them, and each reads back a truthy
value (the methods are function objects; `__proto__` reads back
`Object.prototype` itself), so `(\x7b\x7d)[w]` is truthy for exactly these `w`
before any assignment. -/
def objectProtoKeys : List String :=
  ["constructor", "hasOwnProperty", "isPrototypeOf", "propertyIsEnumerable",
   "toLocaleString", "toString", "valueOf", "__proto__", "__defineGetter__",
   "__defineSetter__", "__lookupGetter__", "__lookupSetter__"]

/-- The deduplication filter of `updateExistingTrend` (lines 119-129): scan
the list, keeping a keyword iff `keywordsExisting[keyword.word]` is falsy,
and assigning `true` to the key when keeping. `seen` is the set of keys whose
read on `keywordsExisting` is truthy: it starts as `objectProtoKeys`
(inherited through the prototype chain, never assigned because the truthy
read short-circuits the assignment branch) and grows with each `= true`
assignment. -/
def dedupFilter : List Keyword → List String → List Keyword
  | [], _ => []
  | k :: ks, seen =>
    if k.word ∈ seen then dedupFilter ks seen
    else k :: dedupFilter ks (k.word :: seen)

/-- One step of the stable insertion sort realising
`newKeywords.sort((a, b) => b.occurences - a.occurences)` (lines 130-132):
`k` moves past strictly greater entries and stops in front of the first
entry whose `occurences` is `≤ k.occurences`. -/
def insertKW (k : Keyword) : List Keyword → List Keyword
  | [] => [k]
  | j :: js => if k.occurences < j.occurences then j :: insertKW k js
               else k :: j :: js

/-- Stable sort descending by `occurences` (lines 130-132). -/
def sortKW : List Keyword → List Keyword
  | [] => []
  | k :: ks => insertKW k (sortKW ks)

/-- ECMAScript end index for `slice(0, e)` on an array of length `len`:
`e < 0` counts from the end (`max (len + e) 0`), otherwise clamp to `len`. -/
def jsSliceEnd (len : ℕ) (e : Int) : ℕ :=
  if e < 0 then len - e.natAbs else min e.toNat len

/-- `l.slice(0, e)` with ECMAScript semantics. -/
def jsSlice0 (l : List Keyword) (e : Int) : List Keyword :=
  l.take (jsSliceEnd l.length e)

/-- The whole keyword pipeline of `updateExistingTrend` (lines 119-133):
concatenate, deduplicate by `word`, sort descending by `occurences`,
`slice(0, maxCount)`. -/
def mergeKeywords (existing incoming : List Keyword) (maxCount : Int) : List Keyword :=
  jsSlice0 (sortKW (dedupFilter (existing ++ incoming) objectProtoKeys)) maxCount

/-- `updateExistingTrend` (lines 103-141): the record resulting from the
`findOneAndUpdate` `$set`; `name` is the query key and stays, every other
field is set from the merge (or taken verbatim from `current`). -/
def updateExistingTrend (gsd : ℚ → String) (maxKeywordsPerTrend : Int)
    (existing current : TrendRecord) : TrendRecord :=
  let newTweetsAnalyzed := existing.tweets_analyzed + current.tweets_analyzed
  let newSentimentScore := mergeSentiment existing.sentiment_score existing.tweets_analyzed
      current.sentiment_score current.tweets_analyzed
  { name := existing.name
    rank := current.rank
    sentiment_score := newSentimentScore
    sentiment_description := gsd newSentimentScore
    tweets_analyzed := newTweetsAnalyzed
    keywords := mergeKeywords existing.keywords current.keywords maxKeywordsPerTrend
    tweets := current.tweets
    articles := current.articles }

/-- `fullTrendData` in `processTrend` (lines 79-86): extend the raw trend
metadata with the observation; sentiment fields come from `streamData` when
present, otherwise the no-data defaults. -/
def fullTrendDataOf (gsd : ℚ → String) (trendData : TrendInput)
    (newsArticles tweets : List String) (streamData : Option StreamData) : TrendRecord :=
  { name := trendData.name
    rank := trendData.rank
    articles := newsArticles
    tweets := tweets
    sentiment_score := match streamData with
      | some sd => sd.sentiment
      | none => 0
    sentiment_description := match streamData with
      | some sd => gsd sd.sentiment
      | none => "No Data"
    tweets_analyzed := match streamData with
      | some sd => sd.tweets_analyzed
      | none => 0
    keywords := match streamData with
      | some sd => sd.keywords
      | none => [] }

/-- `processTrend` (lines 77-99): build `fullTrendData`, then either merge
into the existing document (`updateExistingTrend`) or create the record
verbatim (`createNewTrend` saves `fullTrendData` as-is). The resulting
persisted record is returned. -/
def processTrend (gsd : ℚ → String) (maxKeywordsPerTrend : Int)
    (trendData : TrendInput) (newsArticles tweets : List String)
    (streamData : Option StreamData) (existingDoc : Option TrendRecord) : TrendRecord :=
  let full := fullTrendDataOf gsd trendData newsArticles tweets streamData
  match existingDoc with
  | some doc => updateExistingTrend gsd maxKeywordsPerTrend doc full
  | none => full

/-- `removeOldTrends` (lines 18-24): `Trend.remove({name: {$nin: currTrends}})`
deletes every stored record whose `name` is not in `currTrends`; the store is
modelled as a list of records and the deletion returns the remaining store. -/
def removeOldTrends (currTrends : List String) (store : List TrendRecord) : List TrendRecord :=
  store.filter (fun r => decide (r.name ∈ currTrends))

/-- A concrete record used to witness universally quantified theorems. -/
def exW : TrendRecord :=
  { name := "t", rank := 1, sentiment_score := 1, sentiment_description := "d",
    tweets_analyzed := 5, keywords := [⟨"a", 10⟩], tweets := [], articles := [] }

/-- A second concrete record used to witness universally quantified theorems. -/
def curW : TrendRecord :=
  { name := "t", rank := 2, sentiment_score := 2, sentiment_description := "d",
    tweets_analyzed := 3, keywords := [⟨"a", 7⟩, ⟨"b", 3⟩], tweets := [], articles := [] }

/-- Concrete streaming data used to witness universally quantified theorems. -/
def sdW : StreamData :=
  { sentiment := 1, tweets_analyzed := 2, keywords := [⟨"a", 4⟩] }

/-! ### Spec-side definitions (for refinement claims) -/

/-- First-occurrence deduplication by `word`, written from the spec's words:
scan in order, keep the first occurrence of each distinct `word` value and
discard subsequent ones with the same `word`. -/
def specFirstOcc : List Keyword → List Keyword
  | [] => []
  | k :: ks => k :: specFirstOcc (ks.filter (fun j => decide ¬(j.word = k.word)))
termination_by l => l.length
decreasing_by
  simp only [List.length_cons]
  exact Nat.lt_succ_of_le (List.length_filter_le _ _)

/-! ## Claims about the sentiment merge -/

/-- **C3**: with non-negative weights, a zero total weight yields score `0`
(no division), and a positive total weight yields the weighted average
`(cs*cw + es*ew) / (ew + cw)`. -/
theorem C3_mergeSentiment_total (es cs : ℚ) (ew cw : ℕ) :
    (ew + cw = 0 → mergeSentiment es ew cs cw = 0) ∧
    (0 < ew + cw →
      mergeSentiment es ew cs cw =
        (cs * (cw : ℚ) + es * (ew : ℚ)) / ((ew : ℚ) + (cw : ℚ))) := by
  constructor
  · intro h
    simp [mergeSentiment, h]
  · intro h
    simp [mergeSentiment, h]

/-- Witness for C3 at `es = 1, ew = 0, cs = 2, cw = 0` (zero branch) and at
`ew = 1, cw = 2` (positive branch). -/
theorem C3_mergeSentiment_total_witness :
    mergeSentiment 1 0 2 0 = 0 ∧
    mergeSentiment 1 1 2 2 = (2 * (2 : ℚ) + 1 * (1 : ℚ)) / ((1 : ℚ) + (2 : ℚ)) := by
  refine ⟨(C3_mergeSentiment_total 1 2 0 0).1 (by decide), ?_⟩
  exact (C3_mergeSentiment_total 1 2 1 2).2 (by decide)

/-- **C5**: `mergeSentiment` is invariant under swapping existing/incoming,
and the updated `tweets_analyzed` is the plain sum of the two weights,
independent of the zero-weight branch. -/
theorem C5_mergeSentiment_comm (gsd : ℚ → String) (maxK : Int)
    (ex cur : TrendRecord) :
    mergeSentiment ex.sentiment_score ex.tweets_analyzed
        cur.sentiment_score cur.tweets_analyzed =
      mergeSentiment cur.sentiment_score cur.tweets_analyzed
        ex.sentiment_score ex.tweets_analyzed ∧
    (updateExistingTrend gsd maxK ex cur).tweets_analyzed =
      ex.tweets_analyzed + cur.tweets_analyzed := by
  constructor
  · unfold mergeSentiment
    rw [Nat.add_comm cur.tweets_analyzed ex.tweets_analyzed]
    by_cases h : 0 < ex.tweets_analyzed + cur.tweets_analyzed
    · simp only [if_pos h]
      ring
    · simp only [if_neg h]
  · rfl

/-- **C6**: when the existing weight is `0` and the incoming weight is
positive, the merged score is exactly the incoming score. -/
theorem C6_zero_existing_weight (es cs : ℚ) (cw : ℕ) (h : 0 < cw) :
    mergeSentiment es 0 cs cw = cs := by
  have hpos : 0 < 0 + cw := by omega
  have hq : ((cw : ℚ)) ≠ 0 := by
    exact_mod_cast Nat.pos_iff_ne_zero.mp h
  simp only [mergeSentiment, if_pos hpos, Nat.cast_zero]
  field_simp

/-- Witness for C6 at `es = 5, cs = 7, cw = 3`. -/
theorem C6_zero_existing_weight_witness :
    mergeSentiment 5 0 7 3 = 7 :=
  C6_zero_existing_weight 5 7 3 (by decide)


/-! ## Helper lemmas for the keyword pipeline -/

/-- Composing the first-occurrence filter for `w` with the seen-set filter is
the seen-set filter for `w :: seen`. -/
lemma filter_word_filter_seen (w : String) (seen : List String) :
    ∀ ks : List Keyword,
      (ks.filter (fun k => decide (k.word ∉ seen))).filter
          (fun j => decide ¬(j.word = w)) =
        ks.filter (fun k => decide (k.word ∉ w :: seen)) := by
  intro ks
  induction ks with
  | nil => rfl
  | cons k ks ih =>
    by_cases hs : k.word ∈ seen
    · rw [List.filter_cons_of_neg (by simpa using hs),
        List.filter_cons_of_neg (by simp [hs]), ih]
    · rw [List.filter_cons_of_pos (by simpa using hs)]
      by_cases hw : k.word = w
      · subst hw
        rw [List.filter_cons_of_neg (by simp),
          List.filter_cons_of_neg (by simp), ih]
      · have h2 : k.word ∉ w :: seen := by
          simp [List.mem_cons, hw, hs]
        rw [List.filter_cons_of_pos (by simpa using hw),
          List.filter_cons_of_pos (by simpa using h2), ih]

/-- `dedupFilter` with seen-set `seen` is first-occurrence deduplication of
the sublist of words not yet seen. -/
lemma dedupFilter_eq_specFirstOcc_filter :
    ∀ (l : List Keyword) (seen : List String),
      dedupFilter l seen = specFirstOcc (l.filter (fun k => decide (k.word ∉ seen))) := by
  intro l
  induction l with
  | nil => intro seen; simp [dedupFilter, specFirstOcc]
  | cons k ks ih =>
    intro seen
    by_cases hs : k.word ∈ seen
    · rw [List.filter_cons_of_neg (by simpa using hs)]
      simp only [dedupFilter, if_pos hs]
      exact ih seen
    · rw [List.filter_cons_of_pos (by simpa using hs)]
      simp only [dedupFilter, if_neg hs, specFirstOcc]
      rw [ih (k.word :: seen), filter_word_filter_seen]

/-- Filtering out a word other than `w` does not change the first match
for `w`. -/
lemma find?_filter_ne (w v : String) (hne : ¬(w = v)) :
    ∀ ks : List Keyword,
      (ks.filter (fun j => decide ¬(j.word = v))).find? (fun k => k.word == w) =
        ks.find? (fun k => k.word == w) := by
  intro ks
  induction ks with
  | nil => rfl
  | cons k ks ih =>
    by_cases hv : k.word = v
    · have hw : ¬((k.word == w) = true) := by
        simp only [beq_iff_eq, hv]
        exact fun h => hne h.symm
      rw [List.filter_cons_of_neg (by simpa using hv),
        @List.find?_cons_of_neg _ (fun j => j.word == w) k ks hw, ih]
    · rw [List.filter_cons_of_pos (by simpa using hv)]
      by_cases hw : k.word = w
      · rw [List.find?_cons_of_pos _ (by simpa using hw),
          List.find?_cons_of_pos _ (by simpa using hw)]
      · rw [List.find?_cons_of_neg _ (by simpa using hw),
          List.find?_cons_of_neg _ (by simpa using hw), ih]

/-- `specFirstOcc` preserves the first match for every word. -/
lemma find?_specFirstOcc (w : String) :
    ∀ l : List Keyword,
      (specFirstOcc l).find? (fun k => k.word == w) = l.find? (fun k => k.word == w) := by
  intro l
  induction l using specFirstOcc.induct with
  | case1 => simp [specFirstOcc]
  | case2 k ks ih =>
    by_cases hw : k.word = w
    · rw [specFirstOcc, List.find?_cons_of_pos _ (by simpa using hw),
        List.find?_cons_of_pos _ (by simpa using hw)]
    · rw [specFirstOcc, List.find?_cons_of_neg _ (by simpa using hw),
        List.find?_cons_of_neg _ (by simpa using hw), ih,
        find?_filter_ne w k.word (fun h => hw h.symm)]

/-- The first match in a concatenation is the first match of the left part
when one exists there. -/
lemma find?_append_left (p : Keyword → Bool) :
    ∀ (l₁ l₂ : List Keyword) (a : Keyword),
      l₁.find? p = some a → (l₁ ++ l₂).find? p = some a := by
  intro l₁ l₂
  induction l₁ with
  | nil => intro a h; exact absurd h (by simp)
  | cons x xs ih =>
    intro a h
    by_cases hx : p x = true
    · rw [List.find?_cons_of_pos _ hx] at h
      rw [List.cons_append, List.find?_cons_of_pos _ hx]
      exact h
    · rw [List.find?_cons_of_neg _ hx] at h
      rw [List.cons_append, List.find?_cons_of_neg _ hx]
      exact ih a h

/-! ## Claims about the keyword merge -/

/-- Reading a word not in `seen` is unaffected by filtering out the words in
`seen`: the first match for such a word is unchanged. -/
lemma find?_filter_seen (w : String) (seen : List String) (hw : w ∉ seen) :
    ∀ ks : List Keyword,
      (ks.filter (fun k => decide (k.word ∉ seen))).find? (fun k => k.word == w) =
        ks.find? (fun k => k.word == w) := by
  intro ks
  induction ks with
  | nil => rfl
  | cons k ks ih =>
    by_cases hs : k.word ∈ seen
    · have hkw : ¬((k.word == w) = true) := by
        simp only [beq_iff_eq]
        exact fun h => hw (h ▸ hs)
      rw [List.filter_cons_of_neg (by simpa using hs),
        @List.find?_cons_of_neg _ (fun j => j.word == w) k ks hkw, ih]
    · rw [List.filter_cons_of_pos (by simpa using hs)]
      by_cases hkw : k.word = w
      · rw [List.find?_cons_of_pos _ (by simpa using hkw),
          List.find?_cons_of_pos _ (by simpa using hkw)]
      · rw [List.find?_cons_of_neg _ (by simpa using hkw),
          List.find?_cons_of_neg _ (by simpa using hkw), ih]

/-- The dedup stage only ever discards entries: its output is a sublist of
its input, so surviving entries keep their input order. -/
lemma dedupFilter_sublist :
    ∀ (l : List Keyword) (seen : List String), List.Sublist (dedupFilter l seen) l := by
  intro l
  induction l with
  | nil => intro seen; simp [dedupFilter]
  | cons k ks ih =>
    intro seen
    by_cases hs : k.word ∈ seen
    · simp only [dedupFilter, if_pos hs]
      exact (ih seen).cons k
    · simp only [dedupFilter, if_neg hs]
      exact (ih (k.word :: seen)).cons₂ k

/-- **C1 counterexample**: the claimed first-occurrence deduplication fails
for words that name `Object.prototype` members: `keywordsExisting["toString"]`
is truthy before any assignment, so at `existing = [\x7btoString,5\x7d]`,
`incoming = []` the program's dedup drops the entry entirely instead of
keeping its first occurrence, and the merged list no longer contains the
existing entry for that word. -/
theorem C1_counterexample :
    dedupFilter ([⟨"toString", 5⟩] ++ []) objectProtoKeys ≠
      specFirstOcc ([⟨"toString", 5⟩] ++ []) ∧
    (dedupFilter ([⟨"toString", 5⟩] ++ []) objectProtoKeys).find?
        (fun k => k.word == "toString") ≠
      List.find? (fun k => k.word == "toString") [⟨"toString", 5⟩] := by
  have hspec : specFirstOcc ([⟨"toString", 5⟩] ++ []) = [⟨"toString", 5⟩] := by
    simp [specFirstOcc]
  have hdedup : dedupFilter ([⟨"toString", 5⟩] ++ []) objectProtoKeys = [] := by
    decide
  rw [hspec, hdedup]
  exact ⟨by decide, by decide⟩

/-- **C1 (amended)**: the deduplication stage of `updateExistingTrend` equals
first-occurrence deduplication of `existing ++ incoming` restricted to
keywords whose `word` does not name an `Object.prototype` member (those are
dropped entirely, their reads being truthy before any assignment); for every
other word occurring in `existing`, the surviving entry is exactly the first
`existing` entry with that word, so its `occurences` value wins over the
incoming one's and counts are not summed. -/
theorem C1_amended_dedup (ex inc : List Keyword) :
    dedupFilter (ex ++ inc) objectProtoKeys =
      specFirstOcc ((ex ++ inc).filter (fun k => decide (k.word ∉ objectProtoKeys))) ∧
    ∀ w : String, w ∉ objectProtoKeys → (∃ k ∈ ex, k.word = w) →
      (dedupFilter (ex ++ inc) objectProtoKeys).find? (fun k => k.word == w) =
        ex.find? (fun k => k.word == w) := by
  refine ⟨dedupFilter_eq_specFirstOcc_filter _ _, ?_⟩
  intro w hwp hw
  rw [dedupFilter_eq_specFirstOcc_filter, find?_specFirstOcc,
    find?_filter_seen w objectProtoKeys hwp]
  obtain ⟨k, hk, hkw⟩ := hw
  have hsome : (ex.find? (fun k => k.word == w)).isSome := by
    rw [List.find?_isSome]
    exact ⟨k, hk, by simpa using hkw⟩
  obtain ⟨a, ha⟩ := Option.isSome_iff_exists.mp hsome
  rw [ha]
  exact find?_append_left _ ex inc a ha

/-- Witness for C1 (amended) at `existing = [\x7ba,10\x7d]`,
`incoming = [\x7ba,7\x7d,\x7bb,3\x7d]`, `w = "a"` (not a prototype member
name): the surviving `a` entry is the existing one with `occurences = 10`. -/
theorem C1_amended_dedup_witness :
    (dedupFilter ([⟨"a", 10⟩] ++ [⟨"a", 7⟩, ⟨"b", 3⟩]) objectProtoKeys).find?
        (fun k => k.word == "a") = List.find? (fun k => k.word == "a") [⟨"a", 10⟩] :=
  (C1_amended_dedup [⟨"a", 10⟩] [⟨"a", 7⟩, ⟨"b", 3⟩]).2 "a" (by decide)
    ⟨⟨"a", 10⟩, by simp⟩

/-- `insertKW` inserts its argument somewhere in the list: the result is a
permutation of consing it. -/
lemma insertKW_perm (k : Keyword) :
    ∀ l : List Keyword, List.Perm (insertKW k l) (k :: l) := by
  intro l
  induction l with
  | nil => exact List.Perm.refl _
  | cons j js ih =>
    by_cases h : k.occurences < j.occurences
    · simp only [insertKW, if_pos h]
      exact (ih.cons j).trans (List.Perm.swap k j js)
    · simp only [insertKW, if_neg h]
      exact List.Perm.refl _

/-- `sortKW` permutes its input. -/
lemma sortKW_perm : ∀ l : List Keyword, List.Perm (sortKW l) l := by
  intro l
  induction l with
  | nil => exact List.Perm.refl _
  | cons k ks ih =>
    exact (insertKW_perm k (sortKW ks)).trans (ih.cons k)

/-- Inserting into a list sorted non-ascending by `occurences` keeps it
sorted. -/
lemma insertKW_sorted (k : Keyword) :
    ∀ l : List Keyword,
      l.Pairwise (fun a b => b.occurences ≤ a.occurences) →
      (insertKW k l).Pairwise (fun a b => b.occurences ≤ a.occurences) := by
  intro l
  induction l with
  | nil => intro _; simp [insertKW]
  | cons j js ih =>
    intro hs
    rw [List.pairwise_cons] at hs
    by_cases h : k.occurences < j.occurences
    · simp only [insertKW, if_pos h]
      rw [List.pairwise_cons]
      refine ⟨?_, ih hs.2⟩
      intro x hx
      rcases List.mem_cons.mp ((insertKW_perm k js).mem_iff.mp hx) with hxk | hxj
      · exact le_of_lt (by simpa [hxk] using h)
      · exact hs.1 x hxj
    · simp only [insertKW, if_neg h]
      rw [List.pairwise_cons]
      refine ⟨?_, List.pairwise_cons.mpr hs⟩
      intro x hx
      rcases List.mem_cons.mp hx with hxj | hxjs
      · subst hxj; omega
      · exact le_trans (hs.1 x hxjs) (by omega)

/-- `sortKW` output is sorted non-ascending by `occurences`. -/
lemma sortKW_sorted :
    ∀ l : List Keyword,
      (sortKW l).Pairwise (fun a b => b.occurences ≤ a.occurences) := by
  intro l
  induction l with
  | nil => simp [sortKW]
  | cons k ks ih => exact insertKW_sorted k (sortKW ks) ih

/-- Stability of `insertKW` on the fibre of one `occurences` value: entries
passed over are strictly greater, so they never share the inserted entry's
`occurences`. -/
lemma insertKW_filter_occ (o : Int) (k : Keyword) :
    ∀ l : List Keyword,
      (insertKW k l).filter (fun j => j.occurences == o) =
        if k.occurences = o then k :: l.filter (fun j => j.occurences == o)
        else l.filter (fun j => j.occurences == o) := by
  intro l
  induction l with
  | nil =>
    by_cases hk : k.occurences = o
    · simp [insertKW, hk]
    · simp [insertKW, hk]
  | cons j js ih =>
    by_cases h : k.occurences < j.occurences
    · simp only [insertKW]
      rw [if_pos h]
      by_cases hk : k.occurences = o
      · have hj : ¬(j.occurences = o) := by omega
        simp [List.filter_cons, hk, hj, ih]
      · by_cases hj : j.occurences = o
        · simp [List.filter_cons, hk, hj, ih]
        · simp [List.filter_cons, hk, hj, ih]
    · simp only [insertKW]
      rw [if_neg h]
      by_cases hk : k.occurences = o
      · simp [List.filter_cons, hk]
      · simp [List.filter_cons, hk]

/-- Stability of `sortKW`: within one `occurences` value, the sorted list
keeps the input's relative order. -/
lemma sortKW_filter_occ (o : Int) :
    ∀ l : List Keyword,
      (sortKW l).filter (fun j => j.occurences == o) =
        l.filter (fun j => j.occurences == o) := by
  intro l
  induction l with
  | nil => rfl
  | cons k ks ih =>
    simp only [sortKW]
    rw [insertKW_filter_occ]
    by_cases hk : k.occurences = o
    · rw [if_pos hk, ih, List.filter_cons_of_pos (by simpa using hk)]
    · rw [if_neg hk, ih, List.filter_cons_of_neg (by simpa using hk)]

/-- **C4**: the merged keyword list is sorted non-ascending by `occurences`,
and any two entries with equal `occurences` appear in the relative order of
their first occurrences in `existing ++ incoming`: the sort keeps every
`occurences` fibre of the deduplicated list unchanged (stability), and the
deduplicated list is a sublist of the concatenation, i.e. it lists the
surviving first occurrences in concatenation order. -/
theorem C4_sorted_stable (ex inc : List Keyword) (maxCount : Int) :
    (mergeKeywords ex inc maxCount).Pairwise (fun a b => b.occurences ≤ a.occurences) ∧
    (∀ o : Int,
      (sortKW (dedupFilter (ex ++ inc) objectProtoKeys)).filter
          (fun j => j.occurences == o) =
        (dedupFilter (ex ++ inc) objectProtoKeys).filter
          (fun j => j.occurences == o)) ∧
    List.Sublist (dedupFilter (ex ++ inc) objectProtoKeys) (ex ++ inc) := by
  refine ⟨List.Pairwise.sublist (List.take_sublist _ _) (sortKW_sorted _), ?_,
    dedupFilter_sublist _ _⟩
  intro o
  exact sortKW_filter_occ o _

/-- **C2 counterexample**: with a negative `maxCount`, ECMAScript
`slice(0, maxCount)` counts from the end of the array, so the result is
neither empty nor of length `≤ maxCount`: at
`existing = [{a,1},{b,2}]`, `incoming = []`, `maxCount = -1` the merge
returns one entry. -/
theorem C2_counterexample :
    mergeKeywords [⟨"a", 1⟩, ⟨"b", 2⟩] [] (-1) ≠ [] ∧
    ¬ (((mergeKeywords [⟨"a", 1⟩, ⟨"b", 2⟩] [] (-1)).length : Int) ≤ -1) := by
  decide

/-- For non-negative `maxCount` the pipeline's `slice(0, maxCount)` bounds
the output length by `maxCount`. -/
lemma mergeKeywords_length_le (ex inc : List Keyword) (maxCount : Int)
    (h : 0 ≤ maxCount) :
    ((mergeKeywords ex inc maxCount).length : Int) ≤ maxCount := by
  have hlen : (mergeKeywords ex inc maxCount).length ≤ maxCount.toNat := by
    unfold mergeKeywords jsSlice0 jsSliceEnd
    rw [List.length_take, if_neg (not_lt.mpr h)]
    omega
  have ht := Int.toNat_of_nonneg h
  omega

/-- **C2 (amended)**: for every non-negative `maxCount`, the merged keyword
list has length at most `maxCount`, and `maxCount = 0` yields the empty
sequence. (For negative `maxCount` the source's `slice(0, maxCount)` keeps
all but the last `|maxCount|` entries instead of none.) -/
theorem C2_amended_length_bound (ex inc : List Keyword) (maxCount : Int)
    (h : 0 ≤ maxCount) :
    ((mergeKeywords ex inc maxCount).length : Int) ≤ maxCount ∧
    (maxCount = 0 → mergeKeywords ex inc maxCount = []) := by
  refine ⟨mergeKeywords_length_le ex inc maxCount h, ?_⟩
  intro h0
  subst h0
  unfold mergeKeywords jsSlice0 jsSliceEnd
  simp

/-- Witness for C2 (amended) at `existing = [{a,1}]`, `incoming = []`,
`maxCount = 0`. -/
theorem C2_amended_length_bound_witness :
    ((mergeKeywords [⟨"a", 1⟩] [] 0).length : Int) ≤ 0 ∧
    ((0 : Int) = 0 → mergeKeywords [⟨"a", 1⟩] [] 0 = []) :=
  C2_amended_length_bound [⟨"a", 1⟩] [] 0 (by decide)

/-- `dedupFilter` output has pairwise-distinct words, none of them in the
seen set. -/
lemma dedupFilter_nodup_words :
    ∀ (l : List Keyword) (seen : List String),
      (dedupFilter l seen).Pairwise (fun a b => ¬(a.word = b.word)) ∧
      ∀ k ∈ dedupFilter l seen, k.word ∉ seen := by
  intro l
  induction l with
  | nil => intro seen; exact ⟨List.Pairwise.nil, by simp [dedupFilter]⟩
  | cons k ks ih =>
    intro seen
    by_cases hs : k.word ∈ seen
    · simpa [dedupFilter, hs] using ih seen
    · have ihk := ih (k.word :: seen)
      simp only [dedupFilter, if_neg hs]
      constructor
      · rw [List.pairwise_cons]
        refine ⟨?_, ihk.1⟩
        intro j hj
        have := ihk.2 j hj
        simp only [List.mem_cons, not_or] at this
        exact fun hc => this.1 hc.symm
      · intro j hj
        rcases List.mem_cons.mp hj with hjk | hjtail
        · subst hjk; exact hs
        · have := ihk.2 j hjtail
          simp only [List.mem_cons, not_or] at this
          exact this.2

/-- The full keyword pipeline keeps words pairwise distinct. -/
lemma mergeKeywords_nodup_words (ex inc : List Keyword) (maxCount : Int) :
    (mergeKeywords ex inc maxCount).Pairwise (fun a b => ¬(a.word = b.word)) := by
  have h1 := (dedupFilter_nodup_words (ex ++ inc) objectProtoKeys).1
  have h2 : (sortKW (dedupFilter (ex ++ inc) objectProtoKeys)).Pairwise
      (fun a b => ¬(a.word = b.word)) :=
    (sortKW_perm _).symm.pairwise h1 (fun hxy hc => hxy hc.symm)
  exact List.Pairwise.sublist (List.take_sublist _ _) h2

/-- **C7 counterexample**: a brand-new trend stores the streaming keywords
verbatim, so with `maxKeywordsPerTrend = 1` and streaming keywords
`[{w,1},{w,2}]` the created record has duplicate words and exceeds the
configured maximum. -/
theorem C7_counterexample :
    ¬ ((processTrend (fun _ => "") 1 ⟨"t", 1⟩ [] []
          (some ⟨0, 0, [⟨"w", 1⟩, ⟨"w", 2⟩]⟩) none).keywords.Pairwise
          (fun a b => ¬(a.word = b.word))) ∧
    ¬ (((processTrend (fun _ => "") 1 ⟨"t", 1⟩ [] []
          (some ⟨0, 0, [⟨"w", 1⟩, ⟨"w", 2⟩]⟩) none).keywords.length : Int) ≤ 1) := by
  constructor
  · intro hc
    rw [show (processTrend (fun _ => "") 1 ⟨"t", 1⟩ [] []
          (some ⟨0, 0, [⟨"w", 1⟩, ⟨"w", 2⟩]⟩) none).keywords
        = [⟨"w", 1⟩, ⟨"w", 2⟩] from rfl, List.pairwise_cons] at hc
    exact hc.1 ⟨"w", 2⟩ (by simp) rfl
  · decide

/-- **C7 (amended)**: records written by `updateExistingTrend` satisfy the
invariant (pairwise-distinct words; length at most the configured maximum
when that maximum is non-negative); records created for a brand-new trend
take `keywords` verbatim from the observation (`[]` without streaming data),
so there the invariant holds only if the incoming streaming keywords already
satisfy it. -/
theorem C7_amended_invariant (gsd : ℚ → String) (maxK : Int) (h : 0 ≤ maxK)
    (ex cur : TrendRecord) (td : TrendInput) (na tw : List String)
    (sd : StreamData) :
    (updateExistingTrend gsd maxK ex cur).keywords.Pairwise
        (fun a b => ¬(a.word = b.word)) ∧
    (((updateExistingTrend gsd maxK ex cur).keywords.length : Int) ≤ maxK) ∧
    (processTrend gsd maxK td na tw none none).keywords = [] ∧
    (processTrend gsd maxK td na tw (some sd) none).keywords = sd.keywords := by
  exact ⟨mergeKeywords_nodup_words _ _ _,
    mergeKeywords_length_le ex.keywords cur.keywords maxK h, rfl, rfl⟩

/-- Witness for C7 (amended) at concrete records with `maxK = 1`. -/
theorem C7_amended_invariant_witness :
    (updateExistingTrend (fun _ => "") 1 exW curW).keywords.Pairwise
        (fun a b => ¬(a.word = b.word)) ∧
    (((updateExistingTrend (fun _ => "") 1 exW curW).keywords.length : Int) ≤ 1) ∧
    (processTrend (fun _ => "") 1 ⟨"t", 1⟩ [] [] none none).keywords = [] ∧
    (processTrend (fun _ => "") 1 ⟨"t", 1⟩ [] [] (some sdW) none).keywords =
      sdW.keywords :=
  C7_amended_invariant (fun _ => "") 1 (by decide) exW curW ⟨"t", 1⟩ [] [] sdW

/-! ## Claims about record creation and pruning -/

/-- **C8**: a brand-new trend with no streaming data gets
`sentiment_score = 0`, `sentiment_description = "No Data"`,
`tweets_analyzed = 0`, `keywords = []`; with streaming data those fields
come from `streamData`, the description derived from `streamData.sentiment`. -/
theorem C8_new_trend_record (gsd : ℚ → String) (maxK : Int) (td : TrendInput)
    (na tw : List String) :
    processTrend gsd maxK td na tw none none =
      { name := td.name, rank := td.rank, sentiment_score := 0,
        sentiment_description := "No Data", tweets_analyzed := 0,
        keywords := [], tweets := tw, articles := na } ∧
    ∀ sd : StreamData,
      processTrend gsd maxK td na tw (some sd) none =
        { name := td.name, rank := td.rank, sentiment_score := sd.sentiment,
          sentiment_description := gsd sd.sentiment,
          tweets_analyzed := sd.tweets_analyzed, keywords := sd.keywords,
          tweets := tw, articles := na } :=
  ⟨rfl, fun _ => rfl⟩

/-- **C9**: `removeOldTrends` keeps exactly the records whose `name` is in
`currTrends`, each kept verbatim and in order (sublist of the store), so it
deletes exactly the records whose name is not a member of the set. -/
theorem C9_remove_exactly_stale (cn : List String) (store : List TrendRecord) :
    (∀ r : TrendRecord, r ∈ removeOldTrends cn store ↔ (r ∈ store ∧ r.name ∈ cn)) ∧
    List.Sublist (removeOldTrends cn store) store := by
  constructor
  · intro r
    simp [removeOldTrends, List.mem_filter]
  · exact List.filter_sublist _

/-! ## The `update` fan-out (C10) -/

/-- State of one run of `update` (lines 34-63): the total number of trends,
the `trendsProcessed` counter, how many per-trend callback chains are still
outstanding, and whether `resolve`/`reject` has been called on the promise
returned by `update`. -/
structure UpdateState where
  total : ℕ
  processed : ℕ
  pending : ℕ
  resolved : Bool
  rejected : Bool
  deriving DecidableEq, Repr

/-- Initial state of `update` for a trend list: `trendsProcessed = 0`, one
outstanding callback chain per trend, promise unsettled. -/
def updateInit (trends : List TrendInput) : UpdateState :=
  { total := trends.length, processed := 0, pending := trends.length,
    resolved := false, rejected := false }

/-- The transitions of `update` (lines 46-61): the only event that touches
the returned promise is the completion of one trend's
`getNews`/`getTweetSample`/`processTrend` chain, which increments
`trendsProcessed` and calls `resolve()` exactly when the counter reaches
`trends.length`. `update` never calls `reject` (the rejection of the
`removeOldTrends` promise is not wired to it), so no transition sets
`rejected`. -/
inductive UpdateStep : UpdateState → UpdateState → Prop where
  | complete (s : UpdateState) (h : 0 < s.pending) :
      UpdateStep s
        { total := s.total, processed := s.processed + 1,
          pending := s.pending - 1,
          resolved := s.resolved || decide (s.processed + 1 = s.total),
          rejected := s.rejected }

/-- **C10**: called with an empty trends array, `update` returns a promise
that is never resolved and never rejected: no per-trend callback is ever
scheduled, and the completion check lives only inside those callbacks. -/
theorem C10_empty_update_hangs (trends : List TrendInput) (h : trends = []) :
    ∀ s : UpdateState, Relation.ReflTransGen UpdateStep (updateInit trends) s →
      s.resolved = false ∧ s.rejected = false := by
  subst h
  intro s hs
  have hfix : s = updateInit [] := by
    induction hs with
    | refl => rfl
    | tail hab hbc ih =>
      subst ih
      cases hbc with
      | complete hb => simp [updateInit] at hb
  subst hfix
  exact ⟨rfl, rfl⟩

/-- Witness for C10: the initial state itself is reachable, and unsettled. -/
theorem C10_empty_update_hangs_witness :
    (updateInit []).resolved = false ∧ (updateInit []).rejected = false :=
  C10_empty_update_hangs [] rfl (updateInit []) Relation.ReflTransGen.refl
